import Mathlib

/-!
Verification of the multi-armed bandit notebook
(`bandits.ipynb`: `BernoulliBandit`, `AbstractAgent` and its policy
subclasses, and the `get_regret` evaluation loop) against its
natural-language specification.

Randomness is modelled by explicit oracles: a stream `Rand : ℕ → ℚ` of
uniform draws, consumed one index at a time, and a sampler
`BetaSampler : ℚ → ℚ → ℕ → ℚ` standing for `np.random.beta(a, b)` at a
given position of the random stream.  Machine floats are modelled by ℚ:
every number the bandit code manipulates (probabilities, 0.0/1.0 rewards,
counts incremented by 1) is exactly representable, and the claims under
study are order/equality claims, not rounding claims.
-/

/-- A stream of uniform-[0,1) random draws, read at explicit indices. -/
abbrev URand : Type := ℕ → ℚ

/-- Oracle for `np.random.beta a b` consuming one stream position. -/
abbrev BetaSampler : Type := ℚ → ℚ → ℕ → ℚ

/-! ## Environment: `class BernoulliBandit` -/

/-- Class `BernoulliBandit`: the environment state is the hidden probability
vector `self._probs` (drawn by `np.random.random(n_actions)` in
`__init__`). -/
structure BernoulliBandit where
  _probs : List ℚ
deriving Repr, DecidableEq

/-- Numpy `np.max` over a 1-d array: `none` models the `ValueError` numpy raises
on an empty array. -/
def np_max : List ℚ → Option ℚ
  | [] => none
  | x :: xs => some (xs.foldl max x)

/-- Property `action_count`: `len(self._probs)`. -/
def BernoulliBandit.action_count (env : BernoulliBandit) : ℕ :=
  env._probs.length

/-- Method `pull(action)`: `if np.random.random() > self._probs[action]: return
0.0` and `return 1.0` otherwise; `u` is the uniform draw consumed. -/
def BernoulliBandit.pull (env : BernoulliBandit) (action : ℕ) (u : ℚ) : ℚ :=
  if u > env._probs.getD action 0 then 0 else 1

/-- Method `optimal_reward()`: `np.max(self._probs)`. -/
def BernoulliBandit.optimal_reward (env : BernoulliBandit) : Option ℚ :=
  np_max env._probs

/-- Method `step()`: body is `pass`. -/
def BernoulliBandit.step (env : BernoulliBandit) : BernoulliBandit :=
  env

/-- Method `reset()`: the body consists only of the docstring
"Used in nonstationary version"; it performs no assignment, so the
probability vector is left untouched. -/
def BernoulliBandit.reset (env : BernoulliBandit) : BernoulliBandit :=
  env

/-! ## Agent state: fields set by `AbstractAgent.init_actions` -/

/-- The mutable fields shared by all agents: `self._successes`,
`self._failures` (numpy float arrays) and `self._total_pulls`. -/
structure AgentCounts where
  _successes : List ℚ
  _failures : List ℚ
  _total_pulls : ℕ
deriving Repr, DecidableEq

/-- Method `init_actions(n_actions)`: zero arrays of length `n_actions`, zero
total pulls. -/
def init_actions (n_actions : ℕ) : AgentCounts :=
  ⟨List.replicate n_actions 0, List.replicate n_actions 0, 0⟩

/-- Method `AbstractAgent.update(action, reward)`: `self._total_pulls += 1`;
`if reward == 1: self._successes[action] += 1 else:
self._failures[action] += 1`. -/
def update (c : AgentCounts) (action : ℕ) (reward : ℚ) : AgentCounts :=
  if reward = 1 then
    { c with
      _total_pulls := c._total_pulls + 1
      _successes := c._successes.set action (c._successes.getD action 0 + 1) }
  else
    { c with
      _total_pulls := c._total_pulls + 1
      _failures := c._failures.set action (c._failures.getD action 0 + 1) }

/-! ## Small list lemmas used throughout -/

theorem getD_set_self {l : List ℚ} {i : ℕ} (h : i < l.length) (v d : ℚ) :
    (l.set i v).getD i d = v := by
  induction l generalizing i with
  | nil => simp at h
  | cons x xs ih =>
    cases i with
    | zero => simp [List.set, List.getD]
    | succ n =>
      simp only [List.set, List.getD, List.get?]
      exact ih (by simpa using h)

theorem getD_set_ne {l : List ℚ} {i m : ℕ} (h : i ≠ m) (v d : ℚ) :
    (l.set i v).getD m d = l.getD m d := by
  induction l generalizing i m with
  | nil => simp [List.set]
  | cons x xs ih =>
    cases i with
    | zero =>
      cases m with
      | zero => exact absurd rfl h
      | succ n => simp [List.set, List.getD]
    | succ n =>
      cases m with
      | zero => simp [List.set, List.getD]
      | succ k =>
        simp only [List.set, List.getD, List.get?]
        exact ih (fun hc => h (by rw [hc]))

theorem sum_set_getD_add_one {l : List ℚ} {i : ℕ} (h : i < l.length) :
    (l.set i (l.getD i 0 + 1)).sum = l.sum + 1 := by
  induction l generalizing i with
  | nil => simp at h
  | cons x xs ih =>
    cases i with
    | zero => simp [List.set, List.getD]; ring
    | succ n =>
      have h' : n < xs.length := by simpa using h
      rw [List.getD_cons_succ, List.set_cons_succ, List.sum_cons, List.sum_cons,
        ih h']
      ring

/-! ## `np.argmax` (first index of the maximum) -/

def np_argmax_go : List ℚ → ℚ → ℕ → ℕ → ℕ
  | [], _, best_i, _ => best_i
  | x :: xs, best_v, best_i, cur =>
    if best_v < x then np_argmax_go xs x cur (cur + 1)
    else np_argmax_go xs best_v best_i (cur + 1)

/-- Numpy `np.argmax` on a nonempty list returns the first index attaining the
maximum; the `[]` case (where numpy raises) is given the junk value 0 and
is never reached under the K ≥ 1 hypotheses of the claims. -/
def np_argmax : List ℚ → ℕ
  | [] => 0
  | x :: xs => np_argmax_go xs x 0 1

/-! ## `EpsilonGreedyAgent.get_action`

`if np.random.random() < self._epsilon: return np.random.randint(0,
len(self._successes))` else `return np.argmax(self._successes /
(self._successes + self._failures))`.

The elementwise quotient is over numpy floats, where `0/0` is NaN; ℚ
instead totalises `0/0` to `0`.  The division-by-zero defect (claim C5)
is therefore captured by `exploit_denominators` below — the exact list of
denominators the exploit branch evaluates — rather than by the totalised
quotient values. -/

/-- The denominators `self._successes + self._failures` (elementwise)
evaluated by the exploit branch of `EpsilonGreedyAgent.get_action`. -/
def EpsilonGreedyAgent.exploit_denominators (c : AgentCounts) : List ℚ :=
  List.zipWith (· + ·) c._successes c._failures

/-- The exploit branch value `np.argmax(successes / (successes +
failures))`, with ℚ-totalised division (see above). -/
def EpsilonGreedyAgent.exploit_action (c : AgentCounts) : ℕ :=
  np_argmax (List.zipWith (fun s f => s / (s + f)) c._successes c._failures)

/-- Numpy `np.random.randint(0, n)` modelled as an oracle on the stream value:
`uniformNat u n` is some index < n chosen from the draw `u`.  The claims
never depend on which one. -/
def uniformNat (u : ℚ) (n : ℕ) : ℕ :=
  (⌊u * n⌋).toNat % n

/-- Method `EpsilonGreedyAgent.get_action`: consumes one uniform draw for the
ε-test, and a second one for `randint` in the explore branch.  Returns
the action and the next unread stream index. -/
def EpsilonGreedyAgent.get_action (eps : ℚ) (rand : URand) (c : AgentCounts)
    (r : ℕ) : ℕ × ℕ :=
  if rand r < eps then (uniformNat (rand (r + 1)) c._successes.length, r + 2)
  else (EpsilonGreedyAgent.exploit_action c, r + 1)

/-! ## `UCBAgent.get_action`

`np.argmax(s/(s+f) + np.sqrt(2*np.log(total_pulls)/(s+f)))`.  The value
needs `log`/`sqrt` over floats; the safety claim C5 is about the
denominators `s+f` and the argument of `np.log`, which we embed exactly. -/

/-- The denominators `self._successes + self._failures` appearing both in
the empirical rate and under the square root of the UCB bonus. -/
def UCBAgent.denominators (c : AgentCounts) : List ℚ :=
  List.zipWith (· + ·) c._successes c._failures

/-- The argument `self._total_pulls` passed to `np.log` in the UCB bonus. -/
def UCBAgent.log_argument (c : AgentCounts) : ℕ :=
  c._total_pulls

/-! ## `ThompsonSamplingAgent.get_action`

```
theta = []
for i in range(len(self._successes)):
    if self._successes[i] * self._failures[i] == 0:
        self._successes[i] = 1
        self._failures[i] = 1
    theta.append(np.random.beta(self._successes[i], self._failures[i]))
return np.argmax(theta)
```

`ts_loop` threads the (mutated!) count arrays, the accumulated `theta`
list, the list of `(a, b)` argument pairs passed to `np.random.beta`
(recorded for claim C4), and the random stream index over the arm indices
`i`. -/

structure TSLoopState where
  succ_arr : List ℚ
  fail_arr : List ℚ
  theta : List ℚ
  beta_args : List (ℚ × ℚ)
  ridx : ℕ
deriving Repr, DecidableEq

/-- One iteration of the `for i in range(...)` body of
`ThompsonSamplingAgent.get_action`: test `successes[i] * failures[i] ==
0`, overwrite both entries with 1 if so, then call `np.random.beta` on
the (re-read, possibly overwritten) entries. -/
def ts_body (beta : BetaSampler) (i : ℕ) (st : TSLoopState) : TSLoopState :=
  let s_i := st.succ_arr.getD i 0
  let f_i := st.fail_arr.getD i 0
  if s_i * f_i = 0 then
    let sa := st.succ_arr.set i 1
    let fa := st.fail_arr.set i 1
    { succ_arr := sa
      fail_arr := fa
      theta := st.theta ++ [beta (sa.getD i 0) (fa.getD i 0) st.ridx]
      beta_args := st.beta_args ++ [(sa.getD i 0, fa.getD i 0)]
      ridx := st.ridx + 1 }
  else
    { st with
      theta := st.theta ++ [beta s_i f_i st.ridx]
      beta_args := st.beta_args ++ [(s_i, f_i)]
      ridx := st.ridx + 1 }

/-- The loop `for i in range(n)`, with `n` iterations left and `i` the
current index. -/
def ts_loop (beta : BetaSampler) : ℕ → ℕ → TSLoopState → TSLoopState
  | 0, _, st => st
  | n + 1, i, st => ts_loop beta n (i + 1) (ts_body beta i st)

/-- The final loop state of `ThompsonSamplingAgent.get_action` on counts
`c`, reading the random stream from index `r`. -/
def ThompsonSamplingAgent.loop_result (beta : BetaSampler) (c : AgentCounts)
    (r : ℕ) : TSLoopState :=
  ts_loop beta c._successes.length 0 ⟨c._successes, c._failures, [], [], r⟩

/-- Method `ThompsonSamplingAgent.get_action`: returns `np.argmax(theta)`
together with the (mutated) count state it leaves behind and the next
unread stream index. -/
def ThompsonSamplingAgent.get_action (beta : BetaSampler) (c : AgentCounts)
    (r : ℕ) : ℕ × AgentCounts × ℕ :=
  let st := ThompsonSamplingAgent.loop_result beta c r
  (np_argmax st.theta, ⟨st.succ_arr, st.fail_arr, c._total_pulls⟩, st.ridx)

/-- The count state `ThompsonSamplingAgent.get_action` leaves in the
agent's `self._successes` / `self._failures` fields. -/
def ThompsonSamplingAgent.counts_after (beta : BetaSampler) (c : AgentCounts)
    (r : ℕ) : AgentCounts :=
  (ThompsonSamplingAgent.get_action beta c r).2.1

/-- The list of `(a, b)` argument pairs passed to `np.random.beta` during
one call of `ThompsonSamplingAgent.get_action`. -/
def ThompsonSamplingAgent.beta_args_used (beta : BetaSampler)
    (c : AgentCounts) (r : ℕ) : List (ℚ × ℚ) :=
  (ThompsonSamplingAgent.loop_result beta c r).beta_args


/-! ## The evaluation loop: `get_regret(env, agents, n_steps, n_trials)`

`get_regret` is duck-typed over its agents: it only calls `.name`,
`.init_actions`, `.get_action` and `.update`.  All agents in the notebook
inherit `init_actions`/`update` unchanged from `AbstractAgent`, so those
stay the concrete functions above, while the policy is abstracted as a
function of the count state and the current stream index (under a fixed
ambient random stream), returning the action, the (possibly mutated, cf.
Thompson) count state, and the next unread stream index. -/

structure SimAgent where
  name : String
  get_action : AgentCounts → ℕ → ℕ × AgentCounts × ℕ

/-- The inner body `action = agent.get_action(); reward =
env.pull(action); agent.update(action, reward)`: returns the new count
state, the reward, and the next unread stream index (`pull` consumes one
uniform draw). -/
def agentPull (env : BernoulliBandit) (rand : URand) (ag : SimAgent)
    (c : AgentCounts) (r : ℕ) : AgentCounts × ℚ × ℕ :=
  let res := ag.get_action c r
  let reward := env.pull res.1 (rand res.2.2)
  (update res.2.1 res.1 reward, reward, res.2.2 + 1)

/-- Loop `for agent in agents:` — run `agentPull` for each agent in order,
threading the stream index; returns the per-agent `(new counts, reward)`
pairs and the final stream index. -/
def stepAll (env : BernoulliBandit) (rand : URand) :
    List SimAgent → List AgentCounts → ℕ → List (AgentCounts × ℚ) × ℕ
  | [], _, r => ([], r)
  | _ :: _, [], r => ([], r)
  | ag :: ags, c :: cs, r =>
    let p := agentPull env rand ag c r
    let rest := stepAll env rand ags cs p.2.2
    ((p.1, p.2.1) :: rest.1, rest.2)

/-- Loop `for i in range(n_steps):` with `T` iterations left and `i` the
current step index.  Each step evaluates `env.optimal_reward()` (`none`
propagates numpy's error on an empty probability array), runs every
agent, and adds `optimal_reward - reward` into `scores[agent][i]`;
`env.step()` is the identity.  State: per-agent counts, per-agent score
rows, stream index. -/
def runSteps (env : BernoulliBandit) (rand : URand) (agents : List SimAgent) :
    ℕ → ℕ → List AgentCounts → List (List ℚ) → ℕ →
    Option (List AgentCounts × List (List ℚ) × ℕ)
  | _, 0, cs, rows, r => some (cs, rows, r)
  | i, T + 1, cs, rows, r =>
    match env.optimal_reward with
    | none => none
    | some opt =>
      let sa := stepAll env rand agents cs r
      runSteps env rand agents (i + 1) T (sa.1.map Prod.fst)
        (List.zipWith
          (fun row pr => row.set i (row.getD i 0 + (opt - pr.2))) rows sa.1)
        sa.2

/-- Loop `for trial in range(n_trials):` — `env.reset()` (a no-op), re-init
every agent's counts to `init_actions(env.action_count)`, then run the
`n_steps` step loop from step index 0; the score rows persist across
trials. -/
def runTrials (env : BernoulliBandit) (rand : URand) (agents : List SimAgent)
    (n_steps : ℕ) : ℕ → List (List ℚ) → ℕ → Option (List (List ℚ) × ℕ)
  | 0, rows, r => some (rows, r)
  | N + 1, rows, r =>
    let env1 := env.reset
    match runSteps env1 rand agents 0 n_steps
        (agents.map fun _ => init_actions env1.action_count) rows r with
    | none => none
    | some st => runTrials env rand agents n_steps N st.2.1 st.2.2

/-- Numpy `np.cumsum` with running total `acc`. -/
def np_cumsum_go : List ℚ → ℚ → List ℚ
  | [], _ => []
  | x :: xs, acc => (acc + x) :: np_cumsum_go xs (acc + x)

/-- Numpy `np.cumsum`: prefix sums. -/
def np_cumsum (l : List ℚ) : List ℚ :=
  np_cumsum_go l 0

/-- Function `get_regret`: score rows start as `[0.0 for step in range(n_steps)]`
per agent; after the trial loop each row is replaced by
`np.cumsum(row) / n_trials`.  Rows are paired with agents positionally,
which coincides with the source's name-keyed `OrderedDict` whenever agent
names are distinct (hypothesis of claim C1).  Caveat: ℚ division
totalises `x / 0` to `0`, whereas numpy's `np.cumsum(row) / 0` yields
NaNs, so the `n_trials = 0` case with `n_steps ≥ 1` is outside the
faithful domain of this embedding; every theorem below either assumes
`n_trials ≥ 1` or fixes `n_steps = 0`, where no element is divided. -/
def get_regret (env : BernoulliBandit) (agents : List SimAgent)
    (n_steps n_trials : ℕ) (rand : URand) :
    Option (List (String × List ℚ)) :=
  match runTrials env rand agents n_steps n_trials
      (agents.map fun _ => List.replicate n_steps (0 : ℚ)) 0 with
  | none => none
  | some st =>
    some (List.zipWith
      (fun ag row => (ag.name, (np_cumsum row).map (fun x => x / n_trials)))
      agents st.1)

/-! ## Instrumented trace: the rewards each trial produces

`rewardsFrom` replays the same `stepAll` recursion but records, instead
of accumulating, each step's per-agent reward list; it is the device used
to *state* which reward an agent obtained at a given trial and step. -/

def rewardsFrom (env : BernoulliBandit) (rand : URand)
    (agents : List SimAgent) : ℕ → List AgentCounts → ℕ → List (List ℚ) × ℕ
  | 0, _, r => ([], r)
  | T + 1, cs, r =>
    let sa := stepAll env rand agents cs r
    let rest := rewardsFrom env rand agents T (sa.1.map Prod.fst) sa.2
    (sa.1.map Prod.snd :: rest.1, rest.2)

/-- The stream index at which trial `tr` starts, when trial 0 starts at
index `r0` and every trial runs `n_steps` steps from freshly initialised
counts. -/
def trialStart (env : BernoulliBandit) (rand : URand)
    (agents : List SimAgent) (n_steps : ℕ) (r0 : ℕ) : ℕ → ℕ
  | 0 => r0
  | tr + 1 =>
    (rewardsFrom env rand agents n_steps
      (agents.map fun _ => init_actions env.action_count)
      (trialStart env rand agents n_steps r0 tr)).2

/-- The reward agent `j` obtained at step `i` of trial `tr` (trial 0
starting at stream index `r0`). -/
def rewardAt (env : BernoulliBandit) (rand : URand) (agents : List SimAgent)
    (n_steps : ℕ) (r0 tr j i : ℕ) : ℚ :=
  (((rewardsFrom env rand agents n_steps
      (agents.map fun _ => init_actions env.action_count)
      (trialStart env rand agents n_steps r0 tr)).1.getD i []).getD j 0)

/-! ## Helper lemmas for the claim theorems -/

theorem zipWith_map_right_self {α β γ : Type} (f : α → β → γ) (g : α → β) :
    ∀ l : List α, List.zipWith f l (l.map g) = l.map (fun a => f a (g a))
  | [] => rfl
  | _ :: xs => by
    simp only [List.map_cons, List.zipWith_cons_cons, List.map]
    exact congrArg _ (zipWith_map_right_self f g xs)

theorem runTrials_zero_steps (env : BernoulliBandit) (rand : URand)
    (agents : List SimAgent) (N : ℕ) (rows : List (List ℚ)) (r : ℕ) :
    runTrials env rand agents 0 N rows r = some (rows, r) := by
  induction N with
  | zero => rfl
  | succ n ih => simp only [runTrials, runSteps, ih]

/-- An always-pull-arm-0 agent, used for concrete evaluations. -/
def constAgent : SimAgent :=
  ⟨"Const", fun c r => (0, c, r)⟩

/-! ## Claim theorems -/

/-- C2 (counterexample): on the concrete environment with probability
vector `[2/5, 1/3]`, `reset()` returns the state unchanged — the
probability vector after reset is exactly the one from the previous
trial, not a fresh uniform redraw. -/
theorem C2_reset_counterexample :
    (BernoulliBandit.mk [2/5, 1/3]).reset = BernoulliBandit.mk [2/5, 1/3] :=
  rfl

/-- C2 (amended): `BernoulliBandit.reset()` is a no-op (its body is only
the docstring "Used in nonstationary version"): for every environment
state it leaves the K arm probabilities unchanged, so every trial of the
evaluation loop runs against the probabilities drawn once in `__init__`,
not independently redrawn ones. -/
theorem C2_reset_is_noop (env : BernoulliBandit) :
    env.reset = env ∧ (env.reset)._probs = env._probs :=
  ⟨rfl, rfl⟩

/-- C3 (code evaluated at the failing input): at the reachable state
successes = [3], failures = [0] (arm 0 pulled three times, all
successes), `ThompsonSamplingAgent.get_action` overwrites the stored
counts with successes = [1], failures = [1]: choosing an action mutates
the learned counts, contradicting the claim. -/
theorem C3_thompson_get_action_mutates :
    ThompsonSamplingAgent.counts_after (fun _ _ _ => 0) ⟨[3], [0], 3⟩ 0 =
      ⟨[1], [1], 3⟩ ∧
    ThompsonSamplingAgent.counts_after (fun _ _ _ => 0) ⟨[3], [0], 3⟩ 0 ≠
      ⟨[3], [0], 3⟩ := by
  constructor
  · norm_num [ThompsonSamplingAgent.counts_after,
      ThompsonSamplingAgent.get_action, ThompsonSamplingAgent.loop_result,
      ts_loop, ts_body]
  · norm_num [ThompsonSamplingAgent.counts_after,
      ThompsonSamplingAgent.get_action, ThompsonSamplingAgent.loop_result,
      ts_loop, ts_body]

/-- C4 (code evaluated at the failing input): at the state
successes = [2], failures = [3], `ThompsonSamplingAgent.get_action`
passes `(2, 3)` to `np.random.beta` — the raw stored counts — and not
the Laplace-smoothed `(2+1, 3+1)` the claim states. -/
theorem C4_beta_args_not_laplace :
    ThompsonSamplingAgent.beta_args_used (fun _ _ _ => 0) ⟨[2], [3], 5⟩ 0 =
      [(2, 3)] ∧
    ThompsonSamplingAgent.beta_args_used (fun _ _ _ => 0) ⟨[2], [3], 5⟩ 0 ≠
      [(2 + 1, 3 + 1)] := by
  constructor
  · norm_num [ThompsonSamplingAgent.beta_args_used,
      ThompsonSamplingAgent.loop_result, ts_loop, ts_body]
  · norm_num [ThompsonSamplingAgent.beta_args_used,
      ThompsonSamplingAgent.loop_result, ts_loop, ts_body]

/-- C5 (code evaluated at the failing input): at the initial state
`init_actions 5` — reachable, since the evaluation loop calls
`init_actions` at the start of every trial and `get_action` runs before
any `update` — every denominator `successes + failures` evaluated by the
ε-greedy exploit branch is zero, the argument `total_pulls` passed to
`np.log` by the UCB index is zero, and every UCB denominator is zero:
the division-by-zero defect does occur, contradicting the claim. -/
theorem C5_zero_denominators_occur :
    EpsilonGreedyAgent.exploit_denominators (init_actions 5) =
      List.replicate 5 0 ∧
    UCBAgent.log_argument (init_actions 5) = 0 ∧
    UCBAgent.denominators (init_actions 5) = List.replicate 5 0 := by
  refine ⟨?_, rfl, ?_⟩
  · norm_num [EpsilonGreedyAgent.exploit_denominators, init_actions,
      List.replicate, List.zipWith]
  · norm_num [UCBAgent.denominators, init_actions, List.replicate,
      List.zipWith]

/-- C6 (counterexample): with the invalid configuration T = 0 (K = 1,
N = 5), the evaluation does not fail: `get_regret` returns the degenerate
mapping sending the agent name to the empty sequence. -/
theorem C6_no_fail_fast_counterexample :
    get_regret ⟨[1/2]⟩ [constAgent] 0 5 (fun _ => 0) =
      some [("Const", [])] := by
  rfl

/-- C6 (amended): `get_regret` performs no configuration validation:
for every environment, agent list, trial count and random stream, the
invalid configuration `n_steps = 0` silently yields the degenerate
mapping from each agent name to the empty sequence instead of a
descriptive error. -/
theorem C6_no_validation (env : BernoulliBandit) (agents : List SimAgent)
    (n_trials : ℕ) (rand : URand) :
    get_regret env agents 0 n_trials rand =
      some (agents.map fun ag => (ag.name, [])) := by
  unfold get_regret
  rw [runTrials_zero_steps]
  simp only [List.map_map]
  rw [zipWith_map_right_self]
  simp [np_cumsum, np_cumsum_go]

/-- C7: for every environment, in-range arm index and uniform draw `u`,
`pull` returns 1.0 exactly when `u ≤` the arm's probability and 0.0
otherwise; in particular the result is always exactly 0.0 or 1.0 (and
`pull` is a pure function of the environment: it modifies no state
beyond consuming the one draw). -/
theorem C7_pull_zero_or_one (env : BernoulliBandit) (action : ℕ) (u : ℚ)
    (h : action < env.action_count) :
    env.pull action u =
      (if u ≤ env._probs.getD action 0 then 1 else 0) ∧
    (env.pull action u = 0 ∨ env.pull action u = 1) := by
  constructor
  · unfold BernoulliBandit.pull
    rcases le_or_lt u (env._probs.getD action 0) with hle | hgt
    · rw [if_neg (not_lt.mpr hle), if_pos hle]
    · rw [if_pos hgt, if_neg (not_le.mpr hgt)]
  · unfold BernoulliBandit.pull
    split
    · exact Or.inl rfl
    · exact Or.inr rfl

/-- C7 witness: the theorem applied at the concrete environment
`[1/2, 1/3]`, arm 1, draw 1/4. -/
theorem C7_pull_zero_or_one_witness :
    (BernoulliBandit.mk [1/2, 1/3]).pull 1 (1/4) =
      (if (1/4 : ℚ) ≤ (BernoulliBandit.mk [1/2, 1/3])._probs.getD 1 0
        then 1 else 0) ∧
    ((BernoulliBandit.mk [1/2, 1/3]).pull 1 (1/4) = 0 ∨
      (BernoulliBandit.mk [1/2, 1/3]).pull 1 (1/4) = 1) :=
  C7_pull_zero_or_one (BernoulliBandit.mk [1/2, 1/3]) 1 (1/4) (by decide)

/-- C8: `update(action, reward)` increments `total_pulls` by one; if
`reward == 1` it increments the success count of exactly `action` by one
and leaves all failure counts and all other success counts unchanged;
otherwise it increments the failure count of exactly `action` by one and
leaves all success counts and all other failure counts unchanged. -/
theorem C8_update_increments (c : AgentCounts) (action : ℕ) (reward : ℚ)
    (hs : action < c._successes.length) (hf : action < c._failures.length) :
    (update c action reward)._total_pulls = c._total_pulls + 1 ∧
    (reward = 1 →
      (update c action reward)._successes.getD action 0 =
        c._successes.getD action 0 + 1 ∧
      (update c action reward)._failures = c._failures ∧
      ∀ k, k ≠ action →
        (update c action reward)._successes.getD k 0 =
          c._successes.getD k 0) ∧
    (reward ≠ 1 →
      (update c action reward)._failures.getD action 0 =
        c._failures.getD action 0 + 1 ∧
      (update c action reward)._successes = c._successes ∧
      ∀ k, k ≠ action →
        (update c action reward)._failures.getD k 0 =
          c._failures.getD k 0) := by
  by_cases hr : reward = 1
  · refine ⟨by simp [update, hr], fun _ => ⟨?_, by simp [update, hr], ?_⟩,
      fun hne => absurd hr hne⟩
    · simp only [update, if_pos hr]
      exact getD_set_self hs _ _
    · intro k hk
      simp only [update, if_pos hr]
      exact getD_set_ne (fun e => hk e.symm) _ _
  · refine ⟨by simp [update, hr], fun heq => absurd heq hr,
      fun _ => ⟨?_, by simp [update, hr], ?_⟩⟩
    · simp only [update, if_neg hr]
      exact getD_set_self hf _ _
    · intro k hk
      simp only [update, if_neg hr]
      exact getD_set_ne (fun e => hk e.symm) _ _

/-- C8 witness: the theorem applied at counts successes=[1,0],
failures=[0,2], total=3, action 0, reward 1. -/
theorem C8_update_increments_witness :
    (update ⟨[1, 0], [0, 2], 3⟩ 0 1)._total_pulls =
      (⟨[1, 0], [0, 2], 3⟩ : AgentCounts)._total_pulls + 1 ∧
    ((1 : ℚ) = 1 →
      (update ⟨[1, 0], [0, 2], 3⟩ 0 1)._successes.getD 0 0 =
        (⟨[1, 0], [0, 2], 3⟩ : AgentCounts)._successes.getD 0 0 + 1 ∧
      (update ⟨[1, 0], [0, 2], 3⟩ 0 1)._failures =
        (⟨[1, 0], [0, 2], 3⟩ : AgentCounts)._failures ∧
      ∀ k, k ≠ 0 →
        (update ⟨[1, 0], [0, 2], 3⟩ 0 1)._successes.getD k 0 =
          (⟨[1, 0], [0, 2], 3⟩ : AgentCounts)._successes.getD k 0) ∧
    ((1 : ℚ) ≠ 1 →
      (update ⟨[1, 0], [0, 2], 3⟩ 0 1)._failures.getD 0 0 =
        (⟨[1, 0], [0, 2], 3⟩ : AgentCounts)._failures.getD 0 0 + 1 ∧
      (update ⟨[1, 0], [0, 2], 3⟩ 0 1)._successes =
        (⟨[1, 0], [0, 2], 3⟩ : AgentCounts)._successes ∧
      ∀ k, k ≠ 0 →
        (update ⟨[1, 0], [0, 2], 3⟩ 0 1)._failures.getD k 0 =
          (⟨[1, 0], [0, 2], 3⟩ : AgentCounts)._failures.getD k 0) :=
  C8_update_increments ⟨[1, 0], [0, 2], 3⟩ 0 1 (by norm_num) (by norm_num)

/-- C10: the invariant `total_pulls = Σ successes + Σ failures` holds at
`init_actions n` (all counters zero) and is preserved by every in-range
`update(action, reward)`: `update` adds one to `total_pulls` and one to
exactly one entry of one of the two arrays. -/
theorem C10_total_pulls_invariant (n : ℕ) (c : AgentCounts) (action : ℕ)
    (reward : ℚ)
    (hs : action < c._successes.length) (hf : action < c._failures.length)
    (hinv : (c._total_pulls : ℚ) = c._successes.sum + c._failures.sum) :
    ((init_actions n)._total_pulls : ℚ) =
      (init_actions n)._successes.sum + (init_actions n)._failures.sum ∧
    ((update c action reward)._total_pulls : ℚ) =
      (update c action reward)._successes.sum +
        (update c action reward)._failures.sum := by
  constructor
  · simp [init_actions, List.sum_replicate]
  · by_cases hr : reward = 1
    · simp only [update, if_pos hr]
      rw [sum_set_getD_add_one hs]
      push_cast
      linarith [hinv]
    · simp only [update, if_neg hr]
      rw [sum_set_getD_add_one hf]
      push_cast
      linarith [hinv]

/-- C10 witness: the theorem applied at n = 2, counts successes=[1,0],
failures=[0,2], total=3, action 1, reward 0. -/
theorem C10_total_pulls_invariant_witness :
    ((init_actions 2)._total_pulls : ℚ) =
      (init_actions 2)._successes.sum + (init_actions 2)._failures.sum ∧
    ((update ⟨[1, 0], [0, 2], 3⟩ 1 0)._total_pulls : ℚ) =
      (update ⟨[1, 0], [0, 2], 3⟩ 1 0)._successes.sum +
        (update ⟨[1, 0], [0, 2], 3⟩ 1 0)._failures.sum :=
  C10_total_pulls_invariant 2 ⟨[1, 0], [0, 2], 3⟩ 1 0 (by norm_num)
    (by norm_num) (by norm_num)

/-! ## `np.cumsum` and `np.max` lemmas -/

theorem np_cumsum_go_length : ∀ (l : List ℚ) (acc : ℚ),
    (np_cumsum_go l acc).length = l.length
  | [], _ => rfl
  | _ :: xs, acc => by
    simp only [np_cumsum_go, List.length_cons]
    rw [np_cumsum_go_length xs]

theorem np_cumsum_go_getD : ∀ (l : List ℚ) (acc : ℚ) (t : ℕ),
    t < l.length →
    (np_cumsum_go l acc).getD t 0 =
      acc + ∑ i in Finset.range (t + 1), l.getD i 0
  | [], _, t, h => by simp at h
  | x :: xs, acc, 0, _ => by
    simp [np_cumsum_go, List.getD]
  | x :: xs, acc, t + 1, h => by
    have h' : t < xs.length := by simpa using h
    simp only [np_cumsum_go, List.getD_cons_succ]
    rw [np_cumsum_go_getD xs (acc + x) t h']
    rw [Finset.sum_range_succ' (fun i => (x :: xs).getD i 0) (t + 1)]
    simp only [List.getD_cons_succ, List.getD_cons_zero]
    ring

theorem np_cumsum_length (l : List ℚ) : (np_cumsum l).length = l.length :=
  np_cumsum_go_length l 0

theorem np_cumsum_getD {l : List ℚ} {t : ℕ} (h : t < l.length) :
    (np_cumsum l).getD t 0 = ∑ i in Finset.range (t + 1), l.getD i 0 := by
  rw [np_cumsum, np_cumsum_go_getD l 0 t h, zero_add]

theorem getD_map_of_lt {α β : Type} (f : α → β) :
    ∀ (l : List α) (t : ℕ), t < l.length →
    ∀ (d : β) (d2 : α), (l.map f).getD t d = f (l.getD t d2)
  | [], t, h, _, _ => by simp at h
  | x :: xs, 0, _, d, d2 => rfl
  | x :: xs, t + 1, h, d, d2 => by
    simp only [List.map_cons, List.getD_cons_succ]
    exact getD_map_of_lt f xs t (by simpa using h) d d2

theorem le_foldl_max_init : ∀ (xs : List ℚ) (b : ℚ), b ≤ xs.foldl max b
  | [], b => le_refl b
  | x :: xs, b => le_trans (le_max_left b x) (le_foldl_max_init xs (max b x))

theorem le_foldl_max_of_mem :
    ∀ (xs : List ℚ) (b x : ℚ), x ∈ xs → x ≤ xs.foldl max b
  | [], _, _, h => absurd h (List.not_mem_nil _)
  | y :: ys, b, x, h => by
    rcases List.mem_cons.mp h with rfl | hmem
    · exact le_trans (le_max_right b x) (le_foldl_max_init ys (max b x))
    · exact le_foldl_max_of_mem ys (max b y) x hmem

/-- Every in-range entry is bounded by `np.max`. -/
theorem getD_le_np_max : ∀ {l : List ℚ} {k : ℕ}, k < l.length →
    l.getD k 0 ≤ (np_max l).getD 0 := by
  intro l k hk
  match l with
  | x :: xs =>
    simp only [np_max, Option.getD_some]
    have hmem : (x :: xs).getD k 0 ∈ x :: xs := by
      rw [List.getD_eq_getElem _ _ hk]
      exact List.getElem_mem hk
    rcases List.mem_cons.mp hmem with he | hmem2
    · rw [he]; exact le_foldl_max_init xs x
    · exact le_foldl_max_of_mem xs x _ hmem2

/-! ## Claim C9: expected cumulative regret is non-decreasing -/

/-- The expected reward, against the probability vector `probs`, of an
action drawn from the distribution `w` over arms (`w k` the probability
of choosing arm `k`): each arm pays 1.0 with its arm probability, so the
mean reward is `Σ w k * probs[k]`. -/
def expectedReward (probs : List ℚ) (w : ℕ → ℚ) : ℚ :=
  ∑ k in Finset.range probs.length, w k * probs.getD k 0

/-- The expectation of `get_regret`'s output curve when the agent's
expected reward at step `i` is `er i`: each per-step score bucket then
accumulates `n_trials` independent trials of mean
`optimal_reward - er i`, and `get_regret` finishes with
`np.cumsum(row) / n_trials` — the exact post-processing embedded here. -/
def expectedRegretCurve (env : BernoulliBandit) (er : ℕ → ℚ)
    (n_steps n_trials : ℕ) : List ℚ :=
  (np_cumsum ((List.range n_steps).map
    (fun i => (n_trials : ℚ) * ((env.optimal_reward).getD 0 - er i)))).map
    (fun x => x / n_trials)

/-- A convex combination of arm probabilities never exceeds
`optimal_reward`. -/
theorem expectedReward_le_np_max (probs : List ℚ) (w : ℕ → ℚ)
    (hw0 : ∀ k, 0 ≤ w k)
    (hw1 : ∑ k in Finset.range probs.length, w k = 1) :
    expectedReward probs w ≤ (np_max probs).getD 0 := by
  unfold expectedReward
  calc ∑ k in Finset.range probs.length, w k * probs.getD k 0
      ≤ ∑ k in Finset.range probs.length, w k * (np_max probs).getD 0 := by
        refine Finset.sum_le_sum (fun k hk => ?_)
        exact mul_le_mul_of_nonneg_left
          (getD_le_np_max (Finset.mem_range.mp hk)) (hw0 k)
    _ = (np_max probs).getD 0 := by
        rw [← Finset.sum_mul, hw1, one_mul]

/-- C9: for every environment with at least one arm, every N ≥ 1, and
every agent policy — abstracted by its per-step action distribution
`w i` over arms (nonnegative weights summing to 1), so that the agent's
expected reward at step `i` is `er i = Σ_k w i k * probs[k]` — the
expected cumulative regret curve produced by `get_regret`'s
accumulate/cumsum/divide pipeline is non-decreasing in the step index:
the expected per-step regret `optimal_reward - er i` is ≥ 0 because no
action distribution beats the best arm in expectation. -/
theorem C9_expected_regret_nondecreasing (env : BernoulliBandit)
    (n_steps n_trials : ℕ) (w : ℕ → ℕ → ℚ) (er : ℕ → ℚ)
    (hN : 1 ≤ n_trials)
    (her : ∀ i, er i = expectedReward env._probs (w i))
    (hw0 : ∀ i k, 0 ≤ w i k)
    (hw1 : ∀ i, ∑ k in Finset.range env._probs.length, w i k = 1) :
    ∀ t, t + 1 < n_steps →
      (expectedRegretCurve env er n_steps n_trials).getD t 0 ≤
        (expectedRegretCurve env er n_steps n_trials).getD (t + 1) 0 := by
  intro t ht
  have hNpos : (0 : ℚ) < n_trials := by exact_mod_cast hN
  set f : ℕ → ℚ :=
    fun i => (n_trials : ℚ) * ((env.optimal_reward).getD 0 - er i) with hf
  have hlen : ((List.range n_steps).map f).length = n_steps := by simp
  have hle1 : t < ((List.range n_steps).map f).length := by
    rw [hlen]; omega
  have hle2 : t + 1 < ((List.range n_steps).map f).length := by
    rw [hlen]; omega
  have hcs1 : t < (np_cumsum ((List.range n_steps).map f)).length := by
    rw [np_cumsum_length]; exact hle1
  have hcs2 : t + 1 < (np_cumsum ((List.range n_steps).map f)).length := by
    rw [np_cumsum_length]; exact hle2
  unfold expectedRegretCurve
  rw [getD_map_of_lt _ _ _ hcs1 0 0, getD_map_of_lt _ _ _ hcs2 0 0]
  rw [div_le_div_iff_of_pos_right hNpos]
  rw [np_cumsum_getD hle1, np_cumsum_getD hle2]
  rw [Finset.sum_range_succ (fun i => ((List.range n_steps).map f).getD i 0)
    (t + 1)]
  have hstep : (0 : ℚ) ≤ ((List.range n_steps).map f).getD (t + 1) 0 := by
    rw [getD_map_of_lt f (List.range n_steps) (t + 1) (by simpa using ht) 0 0]
    rw [hf]
    refine mul_nonneg (le_of_lt hNpos) ?_
    rw [sub_nonneg, her]
    exact expectedReward_le_np_max env._probs _ (hw0 _) (hw1 _)
  linarith

/-- C9 witness: the theorem applied at the environment `[1/2, 1/4]`,
3 steps, 2 trials, the uniform action distribution, and step index 0. -/
theorem C9_expected_regret_nondecreasing_witness :
    (expectedRegretCurve ⟨[1/2, 1/4]⟩
      (fun _ => expectedReward [1/2, 1/4] (fun _ => 1/2)) 3 2).getD 0 0 ≤
    (expectedRegretCurve ⟨[1/2, 1/4]⟩
      (fun _ => expectedReward [1/2, 1/4] (fun _ => 1/2)) 3 2).getD (0 + 1) 0 :=
  C9_expected_regret_nondecreasing ⟨[1/2, 1/4]⟩ 3 2 (fun _ _ => 1/2)
    (fun _ => expectedReward [1/2, 1/4] (fun _ => 1/2))
    (by norm_num) (fun _ => rfl) (fun _ _ => by norm_num)
    (fun _ => by norm_num [Finset.sum_range_succ]) 0 (by norm_num)

/-! ## Claim C1: closed form of `get_regret` -/

theorem getD_zipWith {α β γ : Type} (f : α → β → γ) :
    ∀ (as : List α) (bs : List β) (j : ℕ), j < as.length → j < bs.length →
    ∀ (d : γ) (d1 : α) (d2 : β),
    (List.zipWith f as bs).getD j d = f (as.getD j d1) (bs.getD j d2)
  | [], _, j, h, _, _, _, _ => by simp at h
  | _ :: _, [], j, _, h, _, _, _ => by simp at h
  | a :: as, b :: bs, 0, _, _, d, d1, d2 => rfl
  | a :: as, b :: bs, j + 1, h1, h2, d, d1, d2 => by
    simp only [List.zipWith_cons_cons, List.getD_cons_succ]
    exact getD_zipWith f as bs j (by simpa using h1) (by simpa using h2) d d1 d2

theorem getD_replicate_zero : ∀ (n m : ℕ),
    (List.replicate n (0 : ℚ)).getD m 0 = 0
  | 0, _ => rfl
  | _ + 1, 0 => rfl
  | n + 1, m + 1 => by
    simp only [List.replicate, List.getD_cons_succ]
    exact getD_replicate_zero n m

theorem stepAll_fst_length (env : BernoulliBandit) (rand : URand) :
    ∀ (ags : List SimAgent) (cs : List AgentCounts) (r : ℕ),
    (stepAll env rand ags cs r).1.length = min ags.length cs.length
  | [], cs, r => by simp [stepAll]
  | ag :: ags, [], r => by simp [stepAll]
  | ag :: ags, c :: cs, r => by
    simp only [stepAll, List.length_cons]
    rw [stepAll_fst_length env rand ags cs]
    omega

/-- One step of the loop: `runSteps` on `T+1` remaining steps unfolds to
one `stepAll` pass followed by the recursive call. -/
theorem runSteps_succ (env : BernoulliBandit) (rand : URand)
    (agents : List SimAgent) (opt : ℚ) (hopt : env.optimal_reward = some opt)
    (i T : ℕ) (cs : List AgentCounts) (rows : List (List ℚ)) (r : ℕ) :
    runSteps env rand agents i (T + 1) cs rows r =
      runSteps env rand agents (i + 1) T
        ((stepAll env rand agents cs r).1.map Prod.fst)
        (List.zipWith
          (fun row pr => row.set i (row.getD i 0 + (opt - pr.2))) rows
          (stepAll env rand agents cs r).1)
        (stepAll env rand agents cs r).2 := by
  simp only [runSteps, hopt]

/-- Unfolding: `rewardsFrom` on `T+1` remaining steps unfolds to one `stepAll` pass. -/
theorem rewardsFrom_succ (env : BernoulliBandit) (rand : URand)
    (agents : List SimAgent) (T : ℕ) (cs : List AgentCounts) (r : ℕ) :
    rewardsFrom env rand agents (T + 1) cs r =
      ((stepAll env rand agents cs r).1.map Prod.snd ::
        (rewardsFrom env rand agents T
          ((stepAll env rand agents cs r).1.map Prod.fst)
          (stepAll env rand agents cs r).2).1,
       (rewardsFrom env rand agents T
          ((stepAll env rand agents cs r).1.map Prod.fst)
          (stepAll env rand agents cs r).2).2) := by
  simp only [rewardsFrom]

/-- Characterisation of the step loop: it succeeds, consumes exactly the
randomness `rewardsFrom` does, preserves the shape of the score rows, and
adds `opt - reward` into bucket `m` for each step `m` in the window
`[i, i+T)`, where the rewards are the trace `rewardsFrom` records. -/
theorem runSteps_spec (env : BernoulliBandit) (rand : URand)
    (agents : List SimAgent) (opt : ℚ) (S : ℕ)
    (hopt : env.optimal_reward = some opt) :
    ∀ (T i : ℕ) (cs : List AgentCounts) (rows : List (List ℚ)) (r : ℕ),
    cs.length = agents.length → rows.length = agents.length →
    (∀ j, j < agents.length → (rows.getD j []).length = S) →
    i + T ≤ S →
    ∃ cs2 rows2,
      runSteps env rand agents i T cs rows r =
        some (cs2, rows2, (rewardsFrom env rand agents T cs r).2) ∧
      rows2.length = agents.length ∧
      (∀ j, j < agents.length → (rows2.getD j []).length = S) ∧
      (∀ j m, j < agents.length → m < S →
        (rows2.getD j []).getD m 0 =
          (rows.getD j []).getD m 0 +
            (if i ≤ m ∧ m < i + T then
              opt -
                (((rewardsFrom env rand agents T cs r).1.getD (m - i)
                  []).getD j 0)
            else 0)) := by
  intro T
  induction T with
  | zero =>
    intro i cs rows r hcs hrows hlen hiT
    refine ⟨cs, rows, rfl, hrows, hlen, ?_⟩
    intro j m hj hm
    have hno : ¬(i ≤ m ∧ m < i + 0) := by omega
    rw [if_neg hno, add_zero]
  | succ T ih =>
    intro i cs rows r hcs hrows hlen hiT
    have hsalen : (stepAll env rand agents cs r).1.length = agents.length := by
      rw [stepAll_fst_length, hcs, Nat.min_self]
    have hcs1 : ((stepAll env rand agents cs r).1.map Prod.fst).length =
        agents.length := by
      rw [List.length_map, hsalen]
    have hrows1 : (List.zipWith
        (fun row pr => row.set i (row.getD i 0 + (opt - pr.2))) rows
        (stepAll env rand agents cs r).1).length = agents.length := by
      rw [List.length_zipWith, hrows, hsalen, Nat.min_self]
    have hentry1 : ∀ j, j < agents.length →
        (List.zipWith
          (fun row pr => row.set i (row.getD i 0 + (opt - pr.2))) rows
          (stepAll env rand agents cs r).1).getD j [] =
        (rows.getD j []).set i ((rows.getD j []).getD i 0 +
          (opt - ((stepAll env rand agents cs r).1.getD j (⟨[], [], 0⟩, 0)).2)) := by
      intro j hj
      exact getD_zipWith _ rows (stepAll env rand agents cs r).1 j
        (by omega) (by omega) [] [] (⟨[], [], 0⟩, 0)
    have hlen1 : ∀ j, j < agents.length →
        ((List.zipWith
          (fun row pr => row.set i (row.getD i 0 + (opt - pr.2))) rows
          (stepAll env rand agents cs r).1).getD j []).length = S := by
      intro j hj
      rw [hentry1 j hj, List.length_set]
      exact hlen j hj
    obtain ⟨cs2, rows2, heq, h2len, h2lens, h2entry⟩ :=
      ih (i + 1) ((stepAll env rand agents cs r).1.map Prod.fst)
        (List.zipWith
          (fun row pr => row.set i (row.getD i 0 + (opt - pr.2))) rows
          (stepAll env rand agents cs r).1)
        (stepAll env rand agents cs r).2 hcs1 hrows1 hlen1 (by omega)
    refine ⟨cs2, rows2, ?_, h2len, h2lens, ?_⟩
    · rw [runSteps_succ env rand agents opt hopt, rewardsFrom_succ]
      exact heq
    · intro j m hj hm
      rw [h2entry j m hj hm, hentry1 j hj, rewardsFrom_succ]
      by_cases hmi : m = i
      · subst hmi
        have hiS : m < (rows.getD j []).length := by
          rw [hlen j hj]; omega
        rw [getD_set_self hiS]
        have hcond : m ≤ m ∧ m < m + (T + 1) := by omega
        rw [if_pos hcond]
        have hcond2 : ¬(m + 1 ≤ m ∧ m < m + 1 + T) := by omega
        rw [if_neg hcond2, add_zero]
        simp only [Nat.sub_self, List.getD_cons_zero]
        rw [getD_map_of_lt Prod.snd (stepAll env rand agents cs r).1 j
          (by omega) 0 (⟨[], [], 0⟩, 0)]
      · rw [getD_set_ne (fun e => hmi e.symm)]
        by_cases hwin : i ≤ m ∧ m < i + (T + 1)
        · have hw1 : i + 1 ≤ m ∧ m < i + 1 + T := by omega
          rw [if_pos hwin, if_pos hw1]
          have hsub : m - i = (m - (i + 1)) + 1 := by omega
          rw [hsub, List.getD_cons_succ]
        · have hw2 : ¬(i + 1 ≤ m ∧ m < i + 1 + T) := by omega
          rw [if_neg hwin, if_neg hw2]

theorem trialStart_shift (env : BernoulliBandit) (rand : URand)
    (agents : List SimAgent) (n_steps : ℕ) (r : ℕ) :
    ∀ tr, trialStart env rand agents n_steps r (tr + 1) =
      trialStart env rand agents n_steps
        (trialStart env rand agents n_steps r 1) tr
  | 0 => rfl
  | tr + 1 => by
    have h := trialStart_shift env rand agents n_steps r tr
    show (rewardsFrom env rand agents n_steps
        (agents.map fun _ => init_actions env.action_count)
        (trialStart env rand agents n_steps r (tr + 1))).2 =
      (rewardsFrom env rand agents n_steps
        (agents.map fun _ => init_actions env.action_count)
        (trialStart env rand agents n_steps
          (trialStart env rand agents n_steps r 1) tr)).2
    rw [h]

/-- Characterisation of the trial loop: it succeeds and each score bucket
`(j, m)` accumulates, over the `N` trials, the per-trial regret
`opt - reward`, the reward of trial `tr` being the `rewardsFrom` trace of
a trial started at stream index `trialStart … r tr` on freshly
initialised counts. -/
theorem runTrials_spec (env : BernoulliBandit) (rand : URand)
    (agents : List SimAgent) (opt : ℚ) (n_steps : ℕ)
    (hopt : env.optimal_reward = some opt) :
    ∀ (N : ℕ) (rows : List (List ℚ)) (r : ℕ),
    rows.length = agents.length →
    (∀ j, j < agents.length → (rows.getD j []).length = n_steps) →
    ∃ rows2 rN,
      runTrials env rand agents n_steps N rows r = some (rows2, rN) ∧
      rows2.length = agents.length ∧
      (∀ j, j < agents.length → (rows2.getD j []).length = n_steps) ∧
      (∀ j m, j < agents.length → m < n_steps →
        (rows2.getD j []).getD m 0 =
          (rows.getD j []).getD m 0 +
            ∑ tr in Finset.range N,
              (opt -
                (((rewardsFrom env rand agents n_steps
                    (agents.map fun _ => init_actions env.action_count)
                    (trialStart env rand agents n_steps r tr)).1.getD m
                  []).getD j 0))) := by
  intro N
  induction N with
  | zero =>
    intro rows r hrows hlen
    refine ⟨rows, r, rfl, hrows, hlen, ?_⟩
    intro j m hj hm
    simp
  | succ N ih =>
    intro rows r hrows hlen
    have hcs : (agents.map fun _ => init_actions env.action_count).length =
        agents.length := by rw [List.length_map]
    obtain ⟨cs2, rows1, heq1, h1len, h1lens, h1entry⟩ :=
      runSteps_spec env rand agents opt n_steps hopt n_steps 0
        (agents.map fun _ => init_actions env.action_count) rows r hcs hrows
        hlen (by omega)
    obtain ⟨rows2, rN, heq2, h2len, h2lens, h2entry⟩ :=
      ih rows1 (rewardsFrom env rand agents n_steps
        (agents.map fun _ => init_actions env.action_count) r).2 h1len h1lens
    refine ⟨rows2, rN, ?_, h2len, h2lens, ?_⟩
    · simp only [runTrials, BernoulliBandit.reset]
      rw [heq1]
      exact heq2
    · intro j m hj hm
      rw [h2entry j m hj hm, h1entry j m hj hm]
      have hwin : (0 ≤ m ∧ m < 0 + n_steps) := by omega
      rw [if_pos hwin]
      rw [Finset.sum_range_succ'
        (fun tr => opt -
          (((rewardsFrom env rand agents n_steps
              (agents.map fun _ => init_actions env.action_count)
              (trialStart env rand agents n_steps r tr)).1.getD m
            []).getD j 0)) N]
      have hshift : ∀ tr,
          trialStart env rand agents n_steps r (tr + 1) =
          trialStart env rand agents n_steps
            ((rewardsFrom env rand agents n_steps
              (agents.map fun _ => init_actions env.action_count) r).2) tr := by
        intro tr
        exact trialStart_shift env rand agents n_steps r tr
      have hsum : ∑ tr in Finset.range N,
          (opt -
            (((rewardsFrom env rand agents n_steps
                (agents.map fun _ => init_actions env.action_count)
                (trialStart env rand agents n_steps r (tr + 1))).1.getD m
              []).getD j 0)) =
          ∑ tr in Finset.range N,
          (opt -
            (((rewardsFrom env rand agents n_steps
                (agents.map fun _ => init_actions env.action_count)
                (trialStart env rand agents n_steps
                  ((rewardsFrom env rand agents n_steps
                    (agents.map fun _ => init_actions env.action_count)
                    r).2) tr)).1.getD m []).getD j 0)) := by
        refine Finset.sum_congr rfl (fun tr _ => ?_)
        rw [hshift tr]
      rw [hsum]
      have h0 : trialStart env rand agents n_steps r 0 = r := rfl
      rw [h0]
      simp only [Nat.sub_zero]
      ring

theorem map_fst_zipWith_pairs (g : List ℚ → List ℚ) :
    ∀ (ags : List SimAgent) (rows : List (List ℚ)),
    rows.length = ags.length →
    (List.zipWith (fun ag row => (ag.name, g row)) ags rows).map Prod.fst =
      ags.map SimAgent.name
  | [], _, _ => rfl
  | ag :: ags, [], h => by simp at h
  | ag :: ags, row :: rows, h => by
    simp only [List.zipWith_cons_cons, List.map_cons]
    rw [map_fst_zipWith_pairs g ags rows (by simpa using h)]

/-- C1: for every environment with K ≥ 1 arms, every non-empty agent
list (with distinct names, as the source's name-keyed score dictionary
presupposes), every T ≥ 1 and N ≥ 1, and every random stream,
`get_regret` succeeds and returns, in agent order, one `(name, curve)`
pair per agent with a curve of length T whose value at step index `t` is
`(1/N) * Σ_{trials} Σ_{i ≤ t} (optimal_reward - reward the agent
obtained at step i of that trial)`: per-step regret is accumulated into
step buckets during the loop and the buckets are then cumulative-summed
and divided by N. -/
theorem C1_get_regret_closed_form (env : BernoulliBandit)
    (agents : List SimAgent) (n_steps n_trials : ℕ) (rand : URand)
    (hK : 1 ≤ env.action_count) (hA : agents ≠ [])
    (hT : 1 ≤ n_steps) (hN : 1 ≤ n_trials)
    (hnames : (agents.map SimAgent.name).Nodup) :
    ∃ res, get_regret env agents n_steps n_trials rand = some res ∧
      res.map Prod.fst = agents.map SimAgent.name ∧
      res.length = agents.length ∧
      (∀ j, j < agents.length → (res.getD j ("", [])).2.length = n_steps) ∧
      (∀ j t, j < agents.length → t < n_steps →
        (res.getD j ("", [])).2.getD t 0 =
          (1 / (n_trials : ℚ)) *
            ∑ tr in Finset.range n_trials, ∑ i in Finset.range (t + 1),
              ((env.optimal_reward).getD 0 -
                rewardAt env rand agents n_steps 0 tr j i)) := by
  have hopt : env.optimal_reward = some ((env.optimal_reward).getD 0) := by
    cases henv : env._probs with
    | nil =>
      exfalso
      rw [BernoulliBandit.action_count, henv] at hK
      simp at hK
    | cons p ps => simp [BernoulliBandit.optimal_reward, np_max, henv]
  have hrows0 : (agents.map fun _ => List.replicate n_steps (0 : ℚ)).length =
      agents.length := by rw [List.length_map]
  have hrows0entry : ∀ j, j < agents.length →
      ((agents.map fun _ => List.replicate n_steps (0 : ℚ)).getD j []) =
        List.replicate n_steps (0 : ℚ) := by
    intro j hj
    exact getD_map_of_lt (fun _ => List.replicate n_steps (0 : ℚ)) agents j hj
      [] constAgent
  have hlen0 : ∀ j, j < agents.length →
      ((agents.map fun _ => List.replicate n_steps (0 : ℚ)).getD j
        []).length = n_steps := by
    intro j hj
    rw [hrows0entry j hj, List.length_replicate]
  obtain ⟨rows2, rN, heq, h2len, h2lens, h2entry⟩ :=
    runTrials_spec env rand agents ((env.optimal_reward).getD 0) n_steps hopt
      n_trials (agents.map fun _ => List.replicate n_steps (0 : ℚ)) 0 hrows0
      hlen0
  refine ⟨List.zipWith
      (fun ag row => (ag.name, (np_cumsum row).map
        (fun x => x / (n_trials : ℚ)))) agents rows2, ?_, ?_, ?_, ?_, ?_⟩
  · simp only [get_regret]
    rw [heq]
  · exact map_fst_zipWith_pairs
      (fun row => (np_cumsum row).map (fun x => x / (n_trials : ℚ))) agents
      rows2 h2len
  · rw [List.length_zipWith, h2len, Nat.min_self]
  · intro j hj
    have hjr2 : j < rows2.length := by omega
    rw [getD_zipWith _ agents rows2 j hj hjr2 ("", []) constAgent []]
    simp only [List.length_map, np_cumsum_length]
    exact h2lens j hj
  · intro j t hj ht
    have hjr2 : j < rows2.length := by omega
    rw [getD_zipWith _ agents rows2 j hj hjr2 ("", []) constAgent []]
    have hcslen : t < (np_cumsum (rows2.getD j [])).length := by
      rw [np_cumsum_length, h2lens j hj]; omega
    rw [getD_map_of_lt (fun x => x / (n_trials : ℚ)) _ t hcslen 0 0]
    have htrow : t < (rows2.getD j []).length := by
      rw [h2lens j hj]; omega
    rw [np_cumsum_getD htrow]
    have hterm : ∀ i ∈ Finset.range (t + 1),
        (rows2.getD j []).getD i 0 =
        ∑ tr in Finset.range n_trials,
          ((env.optimal_reward).getD 0 -
            rewardAt env rand agents n_steps 0 tr j i) := by
      intro i hi
      have hiS : i < n_steps := by
        have := Finset.mem_range.mp hi
        omega
      rw [h2entry j i hj hiS]
      have hz : ((agents.map fun _ => List.replicate n_steps (0 : ℚ)).getD j
          []).getD i 0 = 0 := by
        rw [hrows0entry j hj, getD_replicate_zero]
      rw [hz, zero_add]
      rfl
    rw [Finset.sum_congr rfl hterm, Finset.sum_comm, one_div, inv_mul_eq_div]

/-- C1 witness: the theorem applied at the one-arm environment `[1/2]`,
the single agent `constAgent`, T = 1, N = 1 and the zero stream. -/
theorem C1_get_regret_closed_form_witness :
    ∃ res, get_regret ⟨[1/2]⟩ [constAgent] 1 1 (fun _ => 0) = some res ∧
      res.map Prod.fst = [constAgent].map SimAgent.name ∧
      res.length = [constAgent].length ∧
      (∀ j, j < [constAgent].length →
        (res.getD j ("", [])).2.length = 1) ∧
      (∀ j t, j < [constAgent].length → t < 1 →
        (res.getD j ("", [])).2.getD t 0 =
          (1 / ((1 : ℕ) : ℚ)) *
            ∑ tr in Finset.range 1, ∑ i in Finset.range (t + 1),
              (((BernoulliBandit.mk [1/2]).optimal_reward).getD 0 -
                rewardAt ⟨[1/2]⟩ (fun _ => 0) [constAgent] 1 0 tr j i)) :=
  C1_get_regret_closed_form ⟨[1/2]⟩ [constAgent] 1 1 (fun _ => 0)
    (by decide) (List.cons_ne_nil _ _) (by decide) (by decide) (by simp)
